import Mathlib

/-!
Shallow embedding of the storage core of the `fyodor` LSM-tree engine
(`src/structures/disk.rs` and `src/structures/memory.rs`), together with
theorems settling the specification claims about it.

Byte buffers are modelled as `List Nat` whose elements are u8 values
(below 256).  A Rust panic (out-of-bounds slice, failed `unwrap`, usize
underflow in a debug build) is modelled by `Option`: `none` is a panic.
The `u32` casts of the source are kept as explicit `% 2 ^ 32`.
-/

/-- Structural worker for `varintEncode`.  The fuel argument only bounds the
recursion depth (each step divides by 128, so any fuel above the value
suffices); it is there so the definition is structurally recursive and the
kernel can evaluate it. -/
def varintGo : Nat → Nat → List Nat
  | 0, _ => []
  | fuel + 1, n => if n < 128 then [n] else (n % 128 + 128) :: varintGo fuel (n / 128)

/-- LEB128 (base-128, continuation-bit) encoding of an unsigned integer,
as written by `integer_encoding::VarInt::encode_var`: emit `n % 128` with
the high bit set while `n ≥ 128`, then the final byte `n < 128`. -/
def varintEncode (n : Nat) : List Nat :=
  varintGo (n + 1) n

/-- Structural worker for `requiredSpace`, counting base-128 digits. -/
def reqSpaceGo : Nat → Nat → Nat
  | 0, _ => 0
  | fuel + 1, v => if v = 0 then 0 else 1 + reqSpaceGo fuel (v / 128)

/-- Number of bytes `encode_var` emits, as computed by
`integer_encoding::required_encoded_space_unsigned`: 1 for zero, otherwise
the number of base-128 digits. -/
def requiredSpace (n : Nat) : Nat :=
  if n = 0 then 1 else reqSpaceGo (n + 1) n

/-- Decoding loop of `integer_encoding`'s `u64::decode_var`: accumulate the
low 7 bits of each byte shifted by a growing shift (the u64 accumulator wraps
at `2 ^ 64`), stop with success on a byte without the continuation bit, fail
once the shift passes 63 while the continuation bit is still set, or when the
input runs out.  Returns the decoded value and the number of bytes consumed
(`shift / 7` after the final increment). -/
def decodeVarLoop : List Nat → Nat → Nat → Option (Nat × Nat)
  | [], _, _ => none
  | byte :: rest, shift, acc =>
    let acc2 := (acc + byte % 128 * 2 ^ shift) % 2 ^ 64
    if byte < 128 then some (acc2, (shift + 7) / 7)
    else if shift + 7 > 9 * 7 then none
    else decodeVarLoop rest (shift + 7) acc2

/-- The result of `u32::decode_var`: decode as u64, then cast to u32
(`n as u32`, i.e. `% 2 ^ 32`). -/
def decodeVarU32 (data : List Nat) : Option (Nat × Nat) :=
  (decodeVarLoop data 0 0).map fun p => (p.1 % 2 ^ 32, p.2)

/-- Rust slice read `&data[start..start+len]`: panics (`none`) when the range
exceeds the slice. -/
def sliceRange (data : List Nat) (start len : Nat) : Option (List Nat) :=
  if start + len ≤ data.length then some ((data.drop start).take len) else none

/-- Rust `data[start..start+src.len()].copy_from_slice(src)`: splices `src`
over the range, panicking (`none`) when the range exceeds the slice. -/
def copyFromSlice (data : List Nat) (start : Nat) (src : List Nat) : Option (List Nat) :=
  if start + src.length ≤ data.length then
    some (data.take start ++ src ++ data.drop (start + src.length))
  else none

namespace Entry

/-- Entry::key_len_from_slice: `u32::decode_var(data).unwrap()`, the key
length and the width of its varint. -/
def key_len_from_slice (data : List Nat) : Option (Nat × Nat) :=
  decodeVarU32 data

/-- Entry::value_len_from_slice: decode the key-length varint first, then
decode the value length from just past it. -/
def value_len_from_slice (data : List Nat) : Option (Nat × Nat) := do
  let (_, keyVarintSize) ← key_len_from_slice data
  decodeVarU32 (data.drop keyVarintSize)

/-- Entry::key: the key bytes start after both varints. -/
def key (data : List Nat) : Option (List Nat) := do
  let (keySize, keyVarintSize) ← key_len_from_slice data
  let (_, valueVarintSize) ← value_len_from_slice data
  sliceRange data (keyVarintSize + valueVarintSize) keySize

/-- Entry::value: the value bytes start after both varints and the key. -/
def value (data : List Nat) : Option (List Nat) := do
  let (keySize, keyVarintSize) ← key_len_from_slice data
  let (valueSize, valueVarintSize) ← value_len_from_slice data
  sliceRange data (keyVarintSize + valueVarintSize + keySize) valueSize

/-- Entry::len_from_slice: total number of bytes occupied by the entry. -/
def len_from_slice (data : List Nat) : Option Nat := do
  let (keySize, keyVarintSize) ← key_len_from_slice data
  let (valueSize, valueVarintSize) ← value_len_from_slice data
  some (keyVarintSize + valueVarintSize + keySize + valueSize)

/-- Entry::create: write the varint of the key length at 0, the varint of the
value length after it, then the key bytes, then the value bytes, into
`blockEntry`; returns the written buffer, `none` when a write is out of
bounds (a Rust panic). -/
def create (blockEntry keyBytes valueBytes : List Nat) : Option (List Nat) := do
  let kenc := varintEncode keyBytes.length
  let venc := varintEncode valueBytes.length
  let d1 ← copyFromSlice blockEntry 0 kenc
  let d2 ← copyFromSlice d1 kenc.length venc
  let d3 ← copyFromSlice d2 (kenc.length + venc.length) keyBytes
  copyFromSlice d3 (kenc.length + venc.length + keyBytes.length) valueBytes

end Entry

/-- BlockError: the only error kind, `FullBlock`. -/
inductive BlockError where
  | FullBlock
deriving DecidableEq, Repr

/-- Frequency after which an offset snapshot is saved. -/
def SNAPSHOT_FREQUENCY : Nat := 10

/-- A Block: entry count (`size`), byte offset of the next entry (`offset`),
and the data region.  Both counters are u32 in the source. -/
structure Block where
  size : Nat
  offset : Nat
  data : List Nat
deriving DecidableEq, Repr

/-- Block::new over an already-allocated region: zero the two counters. -/
def Block.new (data : List Nat) : Block :=
  { size := 0, offset := 0, data := data }

/-- Little-endian bytes of a u32, as produced by `offset.to_le_bytes()`. -/
def toLeBytes (n : Nat) : List Nat :=
  [n % 256, n / 256 % 256, n / 65536 % 256, n / 16777216 % 256]

/-- Block::save_offset_snapshot: store the current offset, little-endian,
at `data.len() - (size / SNAPSHOT_FREQUENCY) * 4`; the usize subtraction
underflows (panics) when the snapshot count no longer fits. -/
def Block.save_offset_snapshot (b : Block) : Option Block :=
  if 4 * (b.size / SNAPSHOT_FREQUENCY) > b.data.length then none
  else do
    let snapshotIndex := b.data.length - b.size / SNAPSHOT_FREQUENCY * 4
    let d ← copyFromSlice b.data snapshotIndex (toLeBytes b.offset)
    some { b with data := d }

/-- Block::read_offset_snapshot: read the u32 stored little-endian at
`data.len() - (index + 1) * 4`; the usize subtraction underflows (panics)
when the index is out of the region. -/
def Block.read_offset_snapshot (b : Block) (index : Nat) : Option Nat :=
  if 4 * (index + 1) > b.data.length then none
  else
    match (b.data.drop (b.data.length - (index + 1) * 4)).take 4 with
    | [b0, b1, b2, b3] => some (b0 + 256 * b1 + 65536 * b2 + 16777216 * b3)
    | _ => none

/-- Block::insert.  Note two faithful transcriptions of the source:
`value_varint_size` is computed from `key.len()` (the source reads
`key.len().required_space()` on both lines), and the free-space check
compares against `data.len() - offset` without reserving the snapshot
region.  On success the entry is created in place at the pre-insert offset;
`some (.error .FullBlock)` is the `Err` return (block unchanged), `none` is
a panic inside `save_offset_snapshot` or `Entry::create`. -/
def Block.insert (b : Block) (keyBytes valueBytes : List Nat) :
    Option (Except BlockError Block) :=
  let keyVarintSize := requiredSpace keyBytes.length
  let valueVarintSize := requiredSpace keyBytes.length
  let offsetIndex := b.offset
  let remainingSpace := b.data.length - offsetIndex
  let entrySize := keyVarintSize + valueVarintSize + keyBytes.length + valueBytes.length
  if entrySize > remainingSpace then some (.error .FullBlock)
  else do
    let b1 : Block := { b with size := b.size + 1 }
    let b2 ← if b1.size % SNAPSHOT_FREQUENCY = 0 then b1.save_offset_snapshot else some b1
    let b3 : Block := { b2 with offset := b2.offset + entrySize }
    let region := (b3.data.drop offsetIndex).take entrySize
    let written ← Entry.create region keyBytes valueBytes
    some (.ok { b3 with
      data := b3.data.take offsetIndex ++ written ++ b3.data.drop (offsetIndex + entrySize) })

/-- Successful insert as an Option: `some` exactly when `insert` returns
`Ok`, carrying the updated block. -/
def Block.insertOk (b : Block) (keyBytes valueBytes : List Nat) : Option Block :=
  (b.insert keyBytes valueBytes).bind fun r =>
    match r with
    | .ok b2 => some b2
    | .error _ => none

/-- Fold a list of (key, value) pairs through Block::insert; `none` as soon
as one insert panics or returns FullBlock. -/
def insertList : Block → List (List Nat × List Nat) → Option Block
  | b, [] => some b
  | b, kv :: rest => (b.insertOk kv.1 kv.2).bind fun b2 => insertList b2 rest

/-- One step of BlockIterator::next repeated: collect `count` entries
starting at `off`; each yielded entry is the suffix `data[off..]` (the
source transmutes `&data[offset..]` to `&Entry`), and the cursor advances by
`entry.len()`.  A failing length decode is the iterator's `unwrap` panic. -/
def Block.entriesFrom (b : Block) : Nat → Nat → Option (List (List Nat))
  | _, 0 => some []
  | off, count + 1 => do
    let e := b.data.drop off
    let l ← Entry.len_from_slice e
    let rest ← b.entriesFrom (off + l) count
    some (e :: rest)

/-- The full iteration of a block: `size` entries starting at offset 0. -/
def Block.entries (b : Block) : Option (List (List Nat)) :=
  b.entriesFrom 0 b.size

/-- The loop of Block::binary_search over the snapshot array: standard
`[left, right)` narrowing; reading a snapshot or decoding the key at its
offset can panic; when the loop exhausts with `left = 0` the final
`read_offset_snapshot(left - 1)` underflows (panics).  The fuel argument
only bounds the iteration count (any fuel at least `right - left` suffices,
as each step shrinks the window); it makes the recursion structural. -/
def Block.binarySearchLoop (b : Block) (cmp : List Nat → Ordering) :
    Nat → Nat → Nat → Option Nat
  | fuel, left, right =>
    if left < right then
      match fuel with
      | 0 => none
      | fuel + 1 =>
        let mid := left + (right - left) / 2
        match b.read_offset_snapshot mid with
        | none => none
        | some off =>
          match Entry.key (b.data.drop off) with
          | none => none
          | some k =>
            match cmp k with
            | .gt => b.binarySearchLoop cmp fuel left mid
            | .lt => b.binarySearchLoop cmp fuel (mid + 1) right
            | .eq => some off
    else
      if left = 0 then none
      else b.read_offset_snapshot (left - 1)

/-- Block::binary_search: search the snapshot array, comparing the entry key
found at each snapshot offset with the three-way comparator.  The initial
window is `[0, size / SNAPSHOT_FREQUENCY)`, so that many iterations of fuel
are enough. -/
def Block.binary_search (b : Block) (cmp : List Nat → Ordering) : Option Nat :=
  b.binarySearchLoop cmp (b.size / SNAPSHOT_FREQUENCY) 0 (b.size / SNAPSHOT_FREQUENCY)

/-- Lexicographic comparison of byte strings, the `Ord` instance on `&[u8]`
used by callers of binary_search. -/
def compareBytes : List Nat → List Nat → Ordering
  | [], [] => .eq
  | [], _ :: _ => .lt
  | _ :: _, [] => .gt
  | a :: as_, b :: bs => match compare a b with
    | .eq => compareBytes as_ bs
    | o => o

/-- A skip-list node from `structures/memory.rs`: per-level backward and
forward links, a key and a value.  The `AtomicCell<Rc<Node>>` link cells are
modelled as the nodes they point to (link data is read through `as_ptr`),
so a node is a finite tree here; the claims only evaluate the search on
concrete acyclic structures. -/
inductive SkipNode (K V : Type) where
  | mk (prev : List (SkipNode K V)) (next : List (SkipNode K V)) (key : K) (val : V)

/-- Backward links of a node. -/
def SkipNode.prev {K V : Type} : SkipNode K V → List (SkipNode K V)
  | .mk p _ _ _ => p

/-- Forward links of a node. -/
def SkipNode.next {K V : Type} : SkipNode K V → List (SkipNode K V)
  | .mk _ n _ _ => n

/-- Key of a node. -/
def SkipNode.key {K V : Type} : SkipNode K V → K
  | .mk _ _ k _ => k

/-- A Finger: per-level brackets.  `FingerNode` of the source is an
`Option` of a node reference. -/
structure Finger (K V : Type) where
  prev : List (Option (SkipNode K V))
  next : List (Option (SkipNode K V))

/-- Finger::empty: the source calls `Vec::with_capacity(levels)`, which
reserves capacity but produces vectors of LENGTH ZERO, so the parameter
does not influence the contents. -/
def Finger.empty {K V : Type} (levels : Nat) : Finger K V :=
  { prev := [], next := [] }

/-- Rust `vec[i] = a`: in-place update, panicking (`none`) when `i` is not
below the vector's length. -/
def listSet {α : Type} (l : List α) (i : Nat) (a : α) : Option (List α) :=
  if i < l.length then some (l.set i a) else none

/-- Finger::from_node: for each `i` below `node.prev.len()`, assign
`finger.prev[i]` and `finger.next[i]` from the node's links.  The finger
starts from `Finger::empty`, whose vectors have length zero, so the first
indexed assignment panics whenever the node has any levels. -/
def Finger.from_node {K V : Type} (node : SkipNode K V) : Option (Finger K V) :=
  (List.range node.prev.length).foldlM
    (fun f i => do
      let p1 ← listSet f.prev i (node.prev.get? i)
      let nx ← node.next.get? i
      let n1 ← listSet f.next i (some nx)
      pure { prev := p1, next := n1 })
    (Finger.empty node.prev.length)

mutual

/-- Number of nodes in a skip-node tree; used only as an upper bound on the
length of a forward walk (each forward step reaches a strict subterm). -/
def SkipNode.nodeSize {K V : Type} : SkipNode K V → Nat
  | .mk p n _ _ => 1 + SkipNode.listSize p + SkipNode.listSize n

/-- Total size of a list of skip nodes. -/
def SkipNode.listSize {K V : Type} : List (SkipNode K V) → Nat
  | [] => 0
  | x :: xs => SkipNode.nodeSize x + SkipNode.listSize xs

end

/-- Outcome of the inner `while` of `bracketing_finger` at one level:
a panic, an early `return` of a finger, or falling out of the loop with the
current node and finger. -/
inductive WalkResult (K V : Type) where
  | panic
  | ret (f : Finger K V)
  | exit (node : SkipNode K V) (finger : Finger K V)

/-- The inner `while curr_order != Less && next_order != Greater` loop of
`bracketing_finger`, at a fixed level.  Each iteration either returns
`Finger::from_node` on an equal key, takes the `break` branch when the level
has no forward link (two indexed finger writes, then break), or advances to
the forward node and re-checks the loop condition.  The fuel argument only
bounds the number of forward steps: each step moves to a structurally
smaller subterm, so `1 + nodeSize` steps can never be exhausted; it makes
the recursion structural. -/
def walkLevel {K V : Type} (cmp : K → K → Ordering) (key : K) (level : Nat) :
    Nat → SkipNode K V → Finger K V → WalkResult K V
  | 0, _, _ => .panic
  | fuel + 1, node, finger =>
    if cmp node.key key = .eq then
      match Finger.from_node node with
      | none => .panic
      | some f => .ret f
    else
      match node.next.get? level with
      | none =>
        match listSet finger.prev level (some node) with
        | none => .panic
        | some p1 =>
          match listSet finger.next level none with
          | none => .panic
          | some n1 => .exit node { prev := p1, next := n1 }
      | some nxt =>
        if cmp nxt.key key = .eq then
          match Finger.from_node nxt with
          | none => .panic
          | some f => .ret f
        else
          if cmp node.key key ≠ .lt ∧ cmp nxt.key key ≠ .gt then
            walkLevel cmp key level fuel nxt finger
          else
            .exit nxt finger

/-- The outer `while level != 0` loop of `bracketing_finger`: run the inner
walk at the current level, then (also after the inner `break`) assign
`finger.next[level]` from the current node and `finger.prev[level]` from
`node.prev[level]`, and descend one level. -/
def outerLoop {K V : Type} (cmp : K → K → Ordering) (key : K) :
    Nat → SkipNode K V → Finger K V → Option (Finger K V)
  | 0, _, finger => some finger
  | level + 1, node, finger =>
    match walkLevel cmp key (level + 1) (1 + node.nodeSize) node finger with
    | .panic => none
    | .ret f => some f
    | .exit node2 finger2 =>
      match listSet finger2.next (level + 1) (some node2) with
      | none => none
      | some n1 =>
        match node2.prev.get? (level + 1) with
        | none => none
        | some pv =>
          match listSet finger2.prev (level + 1) (some pv) with
          | none => none
          | some p1 => outerLoop cmp key level node2 { prev := p1, next := n1 }

/-- Finger::bracketing_finger.  `let mut level = list.next.len() - 1` is a
usize subtraction that underflows (debug panic, `none`) on a node without
levels; when the key precedes the head's key, `finger.next.fill(...)` runs
on the zero-length vector of `Finger::empty` and the finger is returned at
once; otherwise the level-by-level walk runs from the top level down to
level 1 (the `while level != 0` loop stops before level 0). -/
def bracketing_finger {K V : Type}
    (cmp : K → K → Ordering) (list : SkipNode K V) (key : K) :
    Option (Finger K V) :=
  match list.next.length with
  | 0 => none
  | n + 1 =>
    let finger : Finger K V := Finger.empty list.next.length
    if cmp key list.key = .lt then
      some { finger with next := finger.next.map fun _ => some list }
    else
      outerLoop cmp key n list finger

/-- MAX_HEIGHT of the skip list. -/
def MAX_HEIGHT : Nat := 12

/-- Model of `rng.gen_range(1..4)`: the half-open range samples uniformly
from the three values 1, 2, 3; `u` is the underlying uniform randomness. -/
def genRangeOneFour (u : Nat) : Nat :=
  1 + u % 3

/-- The height-drawing loop of `Node::insert`:
`while rng.gen_range(1..4) == 1 && levels < MAX_HEIGHT { levels += 1 }`.
`draws` is the stream of raw random values, `i` the next stream position.
The remaining-fuel argument stands for `MAX_HEIGHT - levels`, making the
recursion structural; the loop result is unchanged (once `levels` reaches
`MAX_HEIGHT` the loop exits with `levels`). -/
def chooseLevelsGo (draws : Nat → Nat) : Nat → Nat → Nat → Nat
  | 0, _, levels => levels
  | rem + 1, i, levels =>
    if genRangeOneFour (draws i) = 1 then chooseLevelsGo draws rem (i + 1) (levels + 1)
    else levels

/-- The number of levels drawn by `Node::insert` for a given randomness
stream: start at 0, climb while the drawn value is 1, cap at `MAX_HEIGHT`. -/
def chooseLevels (draws : Nat → Nat) : Nat :=
  chooseLevelsGo draws MAX_HEIGHT 0 0


/-!  Concrete fixtures: blocks reached by running the embedded operations on
small buffers, written out so that each theorem evaluates cheap, explicit
states. -/

/-- Ten 11-byte records, as in the repository's own tests. -/
def esA : List (List Nat × List Nat) :=
  (List.range 10).map fun n => ([n, 0, 1, 2, 3], [n, 5, 6, 7])

/-- The block reached by inserting `esA` into a fresh 120-byte block:
offset 110, one snapshot (value 99) stored at bytes 116..119. -/
def blockA : Block :=
  ⟨10, 110, ((List.range 10).map fun n => [5, 4, n, 0, 1, 2, 3, n, 5, 6, 7]).flatten ++
    [0, 0, 0, 0, 0, 0, 99, 0, 0, 0]⟩

/-- `blockA` after one more insert of key `[0,1,2]`, value `[0,1]`: the
7-byte record at 110..116 overwrites byte 116 of the stored snapshot. -/
def blockB : Block :=
  ⟨11, 117, ((List.range 10).map fun n => [5, 4, n, 0, 1, 2, 3, n, 5, 6, 7]).flatten ++
    [3, 2, 0, 1, 2, 0, 1, 0, 0, 0]⟩

/-- Ten 4-byte records with value byte 200. -/
def esC : List (List Nat × List Nat) :=
  (List.range 10).map fun n => ([n], [200])

/-- The block reached by inserting `esC` into a fresh 43-byte block: the
tenth record's last byte (200) lands on the low byte of the snapshot slot. -/
def blockC : Block :=
  ⟨10, 40, ((List.range 10).map fun n => [1, 1, n, 200]).flatten ++ [0, 0, 0]⟩

/-- Ten 3-byte records with empty values. -/
def esD : List (List Nat × List Nat) :=
  (List.range 10).map fun n => ([n], [])

/-- The block reached by inserting `esD` into a fresh 34-byte block: record
region 0..29, one intact snapshot (value 27) at bytes 30..33. -/
def blockD : Block :=
  ⟨10, 30, ((List.range 10).map fun n => [1, 0, n]).flatten ++ [27, 0, 0, 0]⟩

/-- A fresh 140-byte block after inserting a 128-byte key with a 1-byte
value: the record really occupies 132 bytes but the offset advances 133. -/
def blockE : Block :=
  ⟨1, 133, [128, 1, 1] ++ List.replicate 128 7 ++ [2] ++ List.replicate 8 0⟩

/-- `blockE` after one more insert of `[5] / [6]`, written at offset 133,
one byte past the end of the first record. -/
def blockF : Block :=
  ⟨2, 137, [128, 1, 1] ++ List.replicate 128 7 ++ [2, 0, 1, 1, 5, 6] ++ [0, 0, 0]⟩

/-- Decidable equality on `Except`, so that insert results can be compared
by evaluation. -/
instance {e a : Type} [DecidableEq e] [DecidableEq a] : DecidableEq (Except e a) := fun x y =>
  match x, y with
  | .ok u, .ok v =>
    if h : u = v then isTrue (by rw [h]) else isFalse (by intro hh; cases hh; exact h rfl)
  | .error u, .error v =>
    if h : u = v then isTrue (by rw [h]) else isFalse (by intro hh; cases hh; exact h rfl)
  | .ok _, .error _ => isFalse (by intro hh; cases hh)
  | .error _, .ok _ => isFalse (by intro hh; cases hh)

set_option maxRecDepth 100000

/-- Head node of height 1 with key 5. -/
def headOne : SkipNode Nat Nat :=
  .mk [] [.mk [] [] 9 0] 5 0

/-- Head node of height 2 with key 5, forward links to keys 8 and 9. -/
def headTwo : SkipNode Nat Nat :=
  .mk [] [.mk [] [] 8 0, .mk [] [] 9 0] 5 0

/-- The byte budget `Block::insert` charges for an entry: the value varint
width is computed from `key.len()`, exactly as the source does. -/
def codeEntrySize (kb vb : List Nat) : Nat :=
  requiredSpace kb.length + requiredSpace kb.length + kb.length + vb.length

/-- Sum of the byte budgets insert charges for the first `n` entries. -/
def sizeUpTo (es : List (List Nat × List Nat)) (n : Nat) : Nat :=
  ((es.take n).map fun kv => codeEntrySize kv.1 kv.2).sum


/-- Every run of the height loop stays within `levels + rem` climbs. -/
theorem chooseLevelsGo_le (draws : Nat → Nat) :
    ∀ rem i levels, chooseLevelsGo draws rem i levels ≤ levels + rem := by
  intro rem
  induction rem with
  | zero => intro i levels; simp [chooseLevelsGo]
  | succ n ih =>
    intro i levels
    simp only [chooseLevelsGo]
    split
    · exact le_trans (ih (i + 1) (levels + 1)) (by omega)
    · omega

/-- C2: the claim states that `Block::insert` fails with FullBlock exactly
when the encoded size exceeds `capacity - write_offset - snapshot bytes in
use`, so that the record region never overlaps the snapshot region.  The
code only checks `capacity - write_offset`: on `blockA` (ten 11-byte
records, offset 110, one snapshot at bytes 116..119 of a 120-byte buffer)
an insert of encoded size 7 > 120 - 110 - 4 succeeds instead of failing,
and its record bytes overwrite byte 116 of the stored snapshot, changing
the snapshot from 99 to 1. -/
theorem c2_insert_check_ignores_snapshot_region :
    insertList (Block.new (List.replicate 120 0)) esA = some blockA ∧
    requiredSpace 3 + requiredSpace 2 + 3 + 2 > blockA.data.length - blockA.offset - 4 ∧
    blockA.insert [0, 1, 2] [0, 1] = some (.ok blockB) ∧
    blockA.read_offset_snapshot 0 = some 99 ∧
    blockB.read_offset_snapshot 0 = some 1 :=
  ⟨by decide, by decide, by decide, by decide, by decide⟩

/-- C3: the claim states that a successful insert advances `write_offset`
by `varint_width(key.len()) + varint_width(value.len()) + key.len() +
value.len()`.  The code computes the value varint width from `key.len()`:
inserting a 128-byte key (2-byte varint) with a 1-byte value (1-byte
varint) into a fresh 140-byte block advances the offset by 133, while the
record's own total length (`Entry::len_from_slice`, as the claim computes
it) is 132. -/
theorem c3_offset_advance_uses_key_varint_twice :
    (Block.new (List.replicate 140 0)).insert (List.replicate 128 7) [2] =
      some (.ok blockE) ∧
    blockE.offset = 133 ∧
    Entry.len_from_slice blockE.data = some 132 ∧
    requiredSpace 128 + requiredSpace 1 + 128 + 1 = 132 ∧
    (133 : Nat) ≠ 132 :=
  ⟨by decide, by decide, by decide, by decide, by decide⟩

/-- C5: the claim states that searching a block populated with strictly
increasing keys (with at least one snapshot) for a present key returns a
snapshot offset at most the record's offset and within SNAPSHOT_FREQUENCY
records of it.  On `blockC` (keys `[0]`..`[9]`, 4-byte records in a 43-byte
buffer) the tenth record's bytes overwrite the snapshot slot, leaving
snapshot 0 = 200, outside the 43-byte buffer; searching for the present key
`[5]` then panics (reads past the buffer) instead of returning an offset. -/
theorem c5_binary_search_panics_on_corrupted_snapshot :
    insertList (Block.new (List.replicate 43 0)) esC = some blockC ∧
    ((blockC.entries).bind fun l => l.get? 5).bind Entry.key = some [5] ∧
    blockC.read_offset_snapshot 0 = some 200 ∧
    blockC.data.length < 200 ∧
    blockC.binary_search (fun k => compareBytes k [5]) = none :=
  ⟨by decide, by decide, by decide, by decide, by decide⟩

/-- C6: the claim states that iterating a block yields the inserted
key/value pairs in order.  After inserting a 128-byte key with a 1-byte
value (the insert advances the offset by 133 though the record occupies
132 bytes) and then `[5] / [6]`, iteration steps by the record's true
length: the second yielded entry starts at byte 132 — the slack byte — and
its decoded key is `[]`, not the inserted `[5]`. -/
theorem c6_iteration_desyncs_from_insert_offsets :
    insertList (Block.new (List.replicate 140 0))
      [(List.replicate 128 7, [2]), ([5], [6])] = some blockF ∧
    (blockF.entries).map List.length = some 2 ∧
    ((blockF.entries).bind fun l => l.get? 1).bind Entry.key = some [] ∧
    ([] : List Nat) ≠ [5] :=
  ⟨by decide, by decide, by decide, by decide⟩

/-- C7: the claim states that `bracketing_finger` always returns a finger
resolved at every level, with `next = head` everywhere when the target key
precedes the head.  `Finger::empty` builds its vectors with
`Vec::with_capacity`, so they have length zero: for a height-1 head and a
smaller target the returned finger has zero levels (the `fill` writes
nothing), and for a height-2 head with a larger target the indexed write
`finger.next[level] = ...` panics. -/
theorem c7_bracketing_finger_has_no_levels :
    (bracketing_finger compare headOne 3).map (fun f => (f.prev.length, f.next.length)) =
      some (0, 0) ∧
    headOne.next.length = 1 ∧
    bracketing_finger compare headTwo 7 = none :=
  ⟨rfl, rfl, rfl⟩

/-- C9: the claim states the climb continues with probability exactly 1/4
(one of four equiprobable outcomes) and heights lie in 1..=12.  The code
draws `gen_range(1..4)`, a half-open range with the three outcomes 1, 2, 3,
of which exactly one continues — probability 1/3, not 1/4 — and the level
counter starts at 0 and is capped at 12, so the drawn levels span 0..=12:
a first draw other than 1 yields level 0, outside 1..=12. -/
theorem c9_height_trials_are_one_of_three :
    (∀ u : Nat, genRangeOneFour u = 1 ∨ genRangeOneFour u = 2 ∨ genRangeOneFour u = 3) ∧
    ((Finset.range 3).filter (fun u => genRangeOneFour u = 1)).card = 1 ∧
    (Finset.range 3).card = 3 ∧
    ((1 : ℚ) / 3 ≠ 1 / 4) ∧
    chooseLevels (fun _ => 0) = 12 ∧
    chooseLevels (fun _ => 1) = 0 ∧
    (∀ draws : Nat → Nat, chooseLevels draws ≤ MAX_HEIGHT) := by
  refine ⟨?_, by decide, by decide, by norm_num, by decide, by decide, ?_⟩
  · intro u
    have : u % 3 < 3 := Nat.mod_lt _ (by omega)
    unfold genRangeOneFour
    omega
  · intro draws
    have h := chooseLevelsGo_le draws MAX_HEIGHT 0 0
    simpa [chooseLevels] using h

/-- C10 counterexample: the claim states every previously saved snapshot
byte is unchanged by a successful insert.  Inserting `[0,1,2] / [0,1]` into
`blockA` succeeds and changes byte 116 — part of the snapshot saved by the
tenth insert — from 99 to 1. -/
theorem c10_counterexample_snapshot_byte_overwritten :
    insertList (Block.new (List.replicate 120 0)) esA = some blockA ∧
    blockA.data.get? 116 = some 99 ∧
    blockA.insertOk [0, 1, 2] [0, 1] = some blockB ∧
    blockB.data.get? 116 = some 1 ∧
    (99 : Nat) ≠ 1 :=
  ⟨by decide, by decide, by decide, by decide, by decide⟩

/-- The fuel of `varintGo` is irrelevant once above the value. -/
theorem varintGo_congr (n : Nat) :
    ∀ f1 f2, n < f1 → n < f2 → varintGo f1 n = varintGo f2 n := by
  induction n using Nat.strong_induction_on with
  | _ n ih =>
    intro f1 f2 h1 h2
    cases f1 with
    | zero => omega
    | succ fa =>
      cases f2 with
      | zero => omega
      | succ fb =>
        simp only [varintGo]
        by_cases hn : n < 128
        · simp [hn]
        · simp only [if_neg hn]
          have hd : n / 128 < n := Nat.div_lt_self (by omega) (by omega)
          congr 1
          exact ih (n / 128) hd fa fb (by omega) (by omega)

/-- Unfolding equation of the LEB128 encoder. -/
theorem varintEncode_unfold (n : Nat) :
    varintEncode n = if n < 128 then [n] else (n % 128 + 128) :: varintEncode (n / 128) := by
  unfold varintEncode
  simp only [varintGo]
  by_cases hn : n < 128
  · simp [hn]
  · simp only [if_neg hn]
    have hd : n / 128 < n := Nat.div_lt_self (by omega) (by omega)
    congr 1
    exact varintGo_congr (n / 128) n (n / 128 + 1) (by omega) (by omega)

/-- Any fuel whose digit capacity covers the value computes the encoding:
this lets large values be evaluated with small fuel. -/
theorem varintGo_eq (n : Nat) :
    ∀ f, 0 < f → n < 128 ^ f → varintGo f n = varintEncode n := by
  induction n using Nat.strong_induction_on with
  | _ n ih =>
    intro f hf hn
    cases f with
    | zero => omega
    | succ fa =>
      rw [varintEncode_unfold]
      simp only [varintGo]
      by_cases h128 : n < 128
      · simp [h128]
      · simp only [if_neg h128]
        have hd : n / 128 < n := Nat.div_lt_self (by omega) (by omega)
        have hfa : 0 < fa := by
          by_contra hc
          push_neg at hc
          interval_cases fa
          simp at hn
          omega
        have hdiv : n / 128 < 128 ^ fa := by
          rw [Nat.div_lt_iff_lt_mul (by norm_num)]
          calc n < 128 ^ (fa + 1) := hn
            _ = 128 ^ fa * 128 := by rw [pow_succ]
        rw [ih (n / 128) hd fa hfa hdiv]

/-- A varint is never empty. -/
theorem varintEncode_length_pos (n : Nat) : 0 < (varintEncode n).length := by
  rw [varintEncode_unfold]
  split <;> simp

/-- The fuel of `reqSpaceGo` is irrelevant once above the value: the loop
counts the digits of the encoding. -/
theorem reqSpaceGo_eq (n : Nat) :
    ∀ f, n < f → reqSpaceGo f n = if n = 0 then 0 else (varintEncode n).length := by
  induction n using Nat.strong_induction_on with
  | _ n ih =>
    intro f hf
    cases f with
    | zero => omega
    | succ fa =>
      simp only [reqSpaceGo]
      by_cases h0 : n = 0
      · simp [h0]
      · simp only [if_neg h0]
        have hd : n / 128 < n := Nat.div_lt_self (by omega) (by omega)
        rw [ih (n / 128) hd fa (by omega)]
        rw [varintEncode_unfold n]
        by_cases hn : n < 128
        · have hz : n / 128 = 0 := Nat.div_eq_of_lt hn
          simp [hn, hz]
        · have hnz : ¬ n / 128 = 0 := by
            have : 1 ≤ n / 128 := (Nat.one_le_div_iff (by omega)).mpr (by omega)
            omega
          simp [hn, hnz]
          omega

/-- `required_space` agrees with the length of the encoding. -/
theorem requiredSpace_eq_length (n : Nat) : requiredSpace n = (varintEncode n).length := by
  unfold requiredSpace
  by_cases h0 : n = 0
  · subst h0
    rw [varintEncode_unfold]
    simp
  · rw [reqSpaceGo_eq n (n + 1) (by omega)]
    simp [h0]

/-- Decoding an encoded value embedded at shift `7 * k` recovers it exactly,
as long as the accumulated value fits in the 64-bit accumulator. -/
theorem decodeVarLoop_encode (n : Nat) :
    ∀ (k acc : Nat) (rest : List Nat),
    acc + n * 2 ^ (7 * k) < 2 ^ 64 →
    decodeVarLoop (varintEncode n ++ rest) (7 * k) acc =
      some (acc + n * 2 ^ (7 * k), k + (varintEncode n).length) := by
  induction n using Nat.strong_induction_on with
  | _ n ih =>
    intro k acc rest hlt
    rw [varintEncode_unfold n]
    by_cases hn : n < 128
    · simp only [if_pos hn, List.cons_append, List.nil_append, decodeVarLoop]
      rw [Nat.mod_eq_of_lt hn, Nat.mod_eq_of_lt hlt]
      have h7 : (7 * k + 7) / 7 = k + 1 := by omega
      simp [h7]
    · simp only [if_neg hn, List.cons_append, decodeVarLoop]
      have hbyte : ¬ (n % 128 + 128 < 128) := by omega
      rw [if_neg hbyte]
      have hpow : 2 ^ (7 * k + 7) = 2 ^ (7 * k) * 128 := by
        rw [pow_add]; norm_num
      have hmle : n % 128 * 2 ^ (7 * k) ≤ n * 2 ^ (7 * k) :=
        Nat.mul_le_mul_right _ (Nat.mod_le _ _)
      have hcap : ¬ (7 * k + 7 > 9 * 7) := by
        have h1 : 2 ^ (7 * k + 7) ≤ n * 2 ^ (7 * k) := by
          rw [hpow]
          calc 2 ^ (7 * k) * 128 ≤ 2 ^ (7 * k) * n := Nat.mul_le_mul_left _ (by omega)
            _ = n * 2 ^ (7 * k) := Nat.mul_comm _ _
        have h2 : 2 ^ (7 * k + 7) < 2 ^ 64 := by
          calc 2 ^ (7 * k + 7) ≤ n * 2 ^ (7 * k) := h1
            _ ≤ acc + n * 2 ^ (7 * k) := by omega
            _ < 2 ^ 64 := hlt
        have h3 : 7 * k + 7 < 64 := by
          by_contra hc
          push_neg at hc
          have hmono : (2 : Nat) ^ 64 ≤ 2 ^ (7 * k + 7) :=
            Nat.pow_le_pow_right (by norm_num) hc
          omega
        omega
      rw [if_neg hcap]
      have hb : (n % 128 + 128) % 128 = n % 128 := by omega
      rw [hb]
      have hacc2 : (acc + n % 128 * 2 ^ (7 * k)) % 2 ^ 64 =
          acc + n % 128 * 2 ^ (7 * k) :=
        Nat.mod_eq_of_lt (by omega)
      rw [hacc2]
      have h7 : 7 * k + 7 = 7 * (k + 1) := by ring
      rw [h7]
      have hd : n / 128 < n := Nat.div_lt_self (by omega) (by omega)
      have hval : acc + n % 128 * 2 ^ (7 * k) + n / 128 * 2 ^ (7 * (k + 1)) =
          acc + n * 2 ^ (7 * k) := by
        have hdm : 128 * (n / 128) + n % 128 = n := Nat.div_add_mod n 128
        have hp : 2 ^ (7 * (k + 1)) = 2 ^ (7 * k) * 128 := by
          rw [show 7 * (k + 1) = 7 * k + 7 by ring]
          exact hpow
        calc acc + n % 128 * 2 ^ (7 * k) + n / 128 * 2 ^ (7 * (k + 1))
            = acc + (128 * (n / 128) + n % 128) * 2 ^ (7 * k) := by rw [hp]; ring
          _ = acc + n * 2 ^ (7 * k) := by rw [hdm]
      rw [ih (n / 128) hd (k + 1) (acc + n % 128 * 2 ^ (7 * k)) rest (by rw [hval]; exact hlt)]
      rw [hval]
      simp
      omega

/-- `u32::decode_var` on an encoded value followed by anything returns the
value cast to u32 and the width of the varint. -/
theorem decodeVarU32_encode (n : Nat) (rest : List Nat) (h : n < 2 ^ 64) :
    decodeVarU32 (varintEncode n ++ rest) =
      some (n % 2 ^ 32, (varintEncode n).length) := by
  unfold decodeVarU32
  have h0 := decodeVarLoop_encode n 0 0 rest (by simpa using h)
  simp only [Nat.mul_zero, pow_zero, Nat.mul_one, Nat.zero_add] at h0
  rw [h0]
  simp

/-- Splicing `src` into a buffer right after a fixed part: the
write stays inside the buffer. -/
theorem copy_step (pre rest src : List Nat) (h : src.length <= rest.length) :
    copyFromSlice (pre ++ rest) pre.length src =
      some (pre ++ src ++ rest.drop src.length) := by
  unfold copyFromSlice
  rw [List.length_append, if_pos (by omega)]
  rw [List.take_left, List.drop_append]

/-- Entry::create on a buffer with room for the four writes yields the
record layout: key varint, value varint, key bytes, value bytes, and the
untouched remainder of the buffer. -/
theorem Entry.create_eq (buf kb vb : List Nat)
    (h : (varintEncode kb.length).length + (varintEncode vb.length).length +
      kb.length + vb.length ≤ buf.length) :
    Entry.create buf kb vb =
      some ((varintEncode kb.length ++ varintEncode vb.length ++ kb ++ vb) ++
        buf.drop ((varintEncode kb.length).length + (varintEncode vb.length).length +
          kb.length + vb.length)) := by
  unfold Entry.create
  dsimp only
  set kenc := varintEncode kb.length with hkenc
  set venc := varintEncode vb.length with hvenc
  have s1 : copyFromSlice buf 0 kenc = some (kenc ++ buf.drop kenc.length) := by
    simpa using copy_step [] buf kenc (by omega)
  rw [s1]
  simp only [Option.bind_eq_bind, Option.some_bind]
  have s2 : copyFromSlice (kenc ++ buf.drop kenc.length) kenc.length venc =
      some ((kenc ++ venc) ++ buf.drop (kenc.length + venc.length)) := by
    rw [copy_step kenc (buf.drop kenc.length) venc (by rw [List.length_drop]; omega),
      List.drop_drop]
  rw [s2]
  simp only [Option.bind_eq_bind, Option.some_bind]
  have s3 : copyFromSlice ((kenc ++ venc) ++ buf.drop (kenc.length + venc.length))
      (kenc.length + venc.length) kb =
      some (((kenc ++ venc) ++ kb) ++
        buf.drop (kenc.length + venc.length + kb.length)) := by
    have hc := copy_step (kenc ++ venc) (buf.drop (kenc.length + venc.length)) kb
      (by rw [List.length_drop]; omega)
    rw [List.length_append] at hc
    rw [hc, List.drop_drop]
  rw [s3]
  simp only [Option.bind_eq_bind, Option.some_bind]
  have s4 : copyFromSlice (((kenc ++ venc) ++ kb) ++
        buf.drop (kenc.length + venc.length + kb.length))
      (kenc.length + venc.length + kb.length) vb =
      some ((((kenc ++ venc) ++ kb) ++ vb) ++
        buf.drop (kenc.length + venc.length + kb.length + vb.length)) := by
    have hc := copy_step ((kenc ++ venc) ++ kb)
      (buf.drop (kenc.length + venc.length + kb.length)) vb
      (by rw [List.length_drop]; omega)
    simp only [List.length_append] at hc
    rw [hc, List.drop_drop]
  rw [s4]

/-- C1 (amended): Entry round-trip for keys and values shorter than
`2 ^ 32` bytes (lengths are decoded as u32): whenever the encoded size —
both varint widths plus both payload lengths — fits the buffer,
`Entry::create` followed by `key`, `value`, `key_len`, `value_len` returns
the original key, value and lengths. -/
theorem c1_entry_roundtrip (buf kb vb : List Nat)
    (hk : kb.length < 2 ^ 32) (hv : vb.length < 2 ^ 32)
    (hfit : requiredSpace kb.length + requiredSpace vb.length + kb.length + vb.length ≤
      buf.length) :
    (Entry.create buf kb vb).bind Entry.key = some kb ∧
    (Entry.create buf kb vb).bind Entry.value = some vb ∧
    (Entry.create buf kb vb).bind Entry.key_len_from_slice =
      some (kb.length, requiredSpace kb.length) ∧
    (Entry.create buf kb vb).bind Entry.value_len_from_slice =
      some (vb.length, requiredSpace vb.length) := by
  have h64k : kb.length < 2 ^ 64 := lt_trans hk (by norm_num)
  have h64v : vb.length < 2 ^ 64 := lt_trans hv (by norm_num)
  have hfit2 : (varintEncode kb.length).length + (varintEncode vb.length).length +
      kb.length + vb.length ≤ buf.length := by
    rw [← requiredSpace_eq_length, ← requiredSpace_eq_length]
    exact hfit
  rw [Entry.create_eq buf kb vb hfit2]
  simp only [Option.bind_eq_bind, Option.some_bind]
  set kenc := varintEncode kb.length with hkenc
  set venc := varintEncode vb.length with hvenc
  set tail := buf.drop (kenc.length + venc.length + kb.length + vb.length) with htail
  have hw : kenc ++ venc ++ kb ++ vb ++ tail =
      kenc ++ (venc ++ (kb ++ (vb ++ tail))) := by
    simp [List.append_assoc]
  have hklen : Entry.key_len_from_slice (kenc ++ venc ++ kb ++ vb ++ tail) =
      some (kb.length, kenc.length) := by
    unfold Entry.key_len_from_slice
    rw [hw, hkenc, decodeVarU32_encode kb.length _ h64k, Nat.mod_eq_of_lt hk]
  have hdropk : (kenc ++ venc ++ kb ++ vb ++ tail).drop kenc.length =
      venc ++ (kb ++ (vb ++ tail)) := by
    rw [hw]
    exact List.drop_left' rfl
  have hvlen : Entry.value_len_from_slice (kenc ++ venc ++ kb ++ vb ++ tail) =
      some (vb.length, venc.length) := by
    unfold Entry.value_len_from_slice
    rw [hklen]
    simp only [Option.bind_eq_bind, Option.some_bind]
    rw [hdropk, hvenc, decodeVarU32_encode vb.length _ h64v, Nat.mod_eq_of_lt hv]
  have hlen : (kenc ++ venc ++ kb ++ vb ++ tail).length =
      kenc.length + venc.length + kb.length + vb.length + tail.length := by
    simp [List.length_append]
    omega
  have hdropkv : (kenc ++ venc ++ kb ++ vb ++ tail).drop (kenc.length + venc.length) =
      kb ++ (vb ++ tail) := by
    rw [show kenc ++ venc ++ kb ++ vb ++ tail =
      (kenc ++ venc) ++ (kb ++ (vb ++ tail)) by simp [List.append_assoc]]
    exact List.drop_left' (by simp)
  have hdropkvk : (kenc ++ venc ++ kb ++ vb ++ tail).drop
      (kenc.length + venc.length + kb.length) = vb ++ tail := by
    rw [show kenc ++ venc ++ kb ++ vb ++ tail =
      (kenc ++ venc ++ kb) ++ (vb ++ tail) by simp [List.append_assoc]]
    exact List.drop_left' (by simp; omega)
  have hkey : Entry.key (kenc ++ venc ++ kb ++ vb ++ tail) = some kb := by
    unfold Entry.key
    rw [hklen]
    simp only [Option.bind_eq_bind, Option.some_bind]
    rw [hvlen]
    simp only [Option.bind_eq_bind, Option.some_bind]
    unfold sliceRange
    rw [if_pos (by rw [hlen]; omega)]
    rw [hdropkv]
    exact congrArg some (List.take_left' rfl)
  have hvalue : Entry.value (kenc ++ venc ++ kb ++ vb ++ tail) = some vb := by
    unfold Entry.value
    rw [hklen]
    simp only [Option.bind_eq_bind, Option.some_bind]
    rw [hvlen]
    simp only [Option.bind_eq_bind, Option.some_bind]
    unfold sliceRange
    rw [if_pos (by rw [hlen]; omega)]
    rw [hdropkvk]
    exact congrArg some (List.take_left' rfl)
  refine ⟨hkey, hvalue, ?_, ?_⟩
  · rw [hklen, requiredSpace_eq_length]
  · rw [hvlen, requiredSpace_eq_length]

/-- C1 counterexample: the round-trip fails as stated once a key reaches
`2 ^ 32` bytes.  The encoded size (a 5-byte varint, a 1-byte varint, the
key, an empty value) fits a buffer of `2 ^ 32 + 6` bytes, but
`u32::decode_var` truncates the key length to 0 and `key()` returns `[]`
instead of the original key. -/
theorem c1_counterexample_u32_truncation :
    requiredSpace (List.replicate (2 ^ 32) (1 : Nat)).length +
      requiredSpace ([] : List Nat).length +
      (List.replicate (2 ^ 32) (1 : Nat)).length + ([] : List Nat).length ≤
      (List.replicate (2 ^ 32 + 6) (0 : Nat)).length ∧
    (Entry.create (List.replicate (2 ^ 32 + 6) 0) (List.replicate (2 ^ 32) 1) []).bind
      Entry.key = some [] ∧
    List.replicate (2 ^ 32) (1 : Nat) ≠ [] := by
  have h5 : (varintEncode (2 ^ 32)).length = 5 := by
    rw [← varintGo_eq (2 ^ 32) 5 (by norm_num) (by norm_num)]
    decide
  have h1 : (varintEncode 0).length = 1 := by decide
  have hreq : requiredSpace (2 ^ 32) = 5 := by
    rw [requiredSpace_eq_length, h5]
  have hreq0 : requiredSpace 0 = 1 := by decide
  refine ⟨?_, ?_, ?_⟩
  · rw [List.length_nil, List.length_replicate, List.length_replicate, hreq, hreq0]
    omega
  · have hfit2 : (varintEncode (List.replicate (2 ^ 32) (1 : Nat)).length).length +
        (varintEncode ([] : List Nat).length).length +
        (List.replicate (2 ^ 32) (1 : Nat)).length + ([] : List Nat).length ≤
        (List.replicate (2 ^ 32 + 6) (0 : Nat)).length := by
      rw [List.length_nil, List.length_replicate, List.length_replicate, h5, h1]
      omega
    rw [Entry.create_eq _ _ _ hfit2, Option.some_bind]
    rw [show (List.replicate (2 ^ 32) (1 : Nat)).length = 2 ^ 32 from
      List.length_replicate _ _]
    rw [show ([] : List Nat).length = 0 from rfl]
    set kb := List.replicate (2 ^ 32) (1 : Nat) with hkb
    set tail := (List.replicate (2 ^ 32 + 6) (0 : Nat)).drop
      ((varintEncode (2 ^ 32)).length + (varintEncode 0).length + 2 ^ 32 + 0) with htail
    have hw : varintEncode (2 ^ 32) ++ varintEncode 0 ++ kb ++ [] ++ tail =
        varintEncode (2 ^ 32) ++ (varintEncode 0 ++ (kb ++ ([] ++ tail))) := by
      rw [List.append_assoc, List.append_assoc, List.append_assoc]
    have hklen : Entry.key_len_from_slice
        (varintEncode (2 ^ 32) ++ varintEncode 0 ++ kb ++ [] ++ tail) = some (0, 5) := by
      unfold Entry.key_len_from_slice
      rw [hw, decodeVarU32_encode (2 ^ 32) _ (by norm_num), Nat.mod_self, h5]
    have hdropk : (varintEncode (2 ^ 32) ++ varintEncode 0 ++ kb ++ [] ++ tail).drop 5 =
        varintEncode 0 ++ (kb ++ ([] ++ tail)) := by
      rw [hw]
      exact List.drop_left' h5
    have hvlen : Entry.value_len_from_slice
        (varintEncode (2 ^ 32) ++ varintEncode 0 ++ kb ++ [] ++ tail) = some (0, 1) := by
      unfold Entry.value_len_from_slice
      rw [hklen]
      simp only [Option.bind_eq_bind, Option.some_bind]
      rw [hdropk, decodeVarU32_encode 0 _ (by norm_num), h1, Nat.zero_mod]
    unfold Entry.key
    rw [hklen]
    simp only [Option.bind_eq_bind, Option.some_bind]
    rw [hvlen]
    simp only [Option.bind_eq_bind, Option.some_bind]
    unfold sliceRange
    rw [if_pos (by
      rw [hw, List.length_append, List.length_append, List.length_append,
        List.length_append, h5, h1]
      omega)]
    rw [List.take_zero]
  · intro hcontra
    have h2 := congrArg List.length hcontra
    rw [List.length_replicate, List.length_nil] at h2
    exact absurd h2 (by norm_num)

/-- Witness for the amended C1 round-trip, at the repository's own test
input: an 11-byte buffer, key `[0,1,2,3,4]`, value `[5,6,7,8]`. -/
theorem c1_entry_roundtrip_witness :
    ([0, 1, 2, 3, 4] : List Nat).length < 2 ^ 32 ∧
    ([5, 6, 7, 8] : List Nat).length < 2 ^ 32 ∧
    requiredSpace ([0, 1, 2, 3, 4] : List Nat).length +
      requiredSpace ([5, 6, 7, 8] : List Nat).length +
      ([0, 1, 2, 3, 4] : List Nat).length + ([5, 6, 7, 8] : List Nat).length ≤
      (List.replicate 11 (0 : Nat)).length ∧
    ((Entry.create (List.replicate 11 0) [0, 1, 2, 3, 4] [5, 6, 7, 8]).bind Entry.key =
        some [0, 1, 2, 3, 4] ∧
      (Entry.create (List.replicate 11 0) [0, 1, 2, 3, 4] [5, 6, 7, 8]).bind Entry.value =
        some [5, 6, 7, 8] ∧
      (Entry.create (List.replicate 11 0) [0, 1, 2, 3, 4] [5, 6, 7, 8]).bind
          Entry.key_len_from_slice =
        some (([0, 1, 2, 3, 4] : List Nat).length,
          requiredSpace ([0, 1, 2, 3, 4] : List Nat).length) ∧
      (Entry.create (List.replicate 11 0) [0, 1, 2, 3, 4] [5, 6, 7, 8]).bind
          Entry.value_len_from_slice =
        some (([5, 6, 7, 8] : List Nat).length,
          requiredSpace ([5, 6, 7, 8] : List Nat).length)) :=
  ⟨by decide, by decide, by decide,
    c1_entry_roundtrip (List.replicate 11 0) [0, 1, 2, 3, 4] [5, 6, 7, 8]
      (by decide) (by decide) (by decide)⟩

/-- When the comparator answers Less at every snapshot entry in the window,
the binary-search loop walks to the right edge and returns the snapshot
just before it. -/
theorem binarySearchLoop_all_lt (b : Block) (cmp : List Nat → Ordering) :
    ∀ fuel left right, right - left ≤ fuel → left ≤ right → 1 ≤ right →
    (∀ j, left ≤ j → j < right →
      (b.read_offset_snapshot j).bind
        (fun off => (Entry.key (b.data.drop off)).map cmp) = some .lt) →
    b.binarySearchLoop cmp fuel left right = b.read_offset_snapshot (right - 1) := by
  intro fuel
  induction fuel with
  | zero =>
    intro left right hfu hle h1 hall
    have heq : left = right := by omega
    simp only [Block.binarySearchLoop]
    rw [if_neg (by omega), if_neg (by omega), heq]
  | succ f ih =>
    intro left right hfu hle h1 hall
    by_cases hlr : left < right
    · simp only [Block.binarySearchLoop]
      rw [if_pos hlr]
      have hmlt : left + (right - left) / 2 < right := by omega
      have hmge : left ≤ left + (right - left) / 2 := by omega
      have hj := hall (left + (right - left) / 2) hmge hmlt
      cases hro : b.read_offset_snapshot (left + (right - left) / 2) with
      | none => rw [hro] at hj; simp at hj
      | some off =>
        rw [hro] at hj
        rw [Option.some_bind] at hj
        cases hk : Entry.key (b.data.drop off) with
        | none => rw [hk] at hj; simp at hj
        | some kbytes =>
          rw [hk] at hj
          simp only [Option.map_some'] at hj
          have hcmp : cmp kbytes = .lt := Option.some.inj hj
          dsimp only
          rw [hk]
          dsimp only
          rw [hcmp]
          exact ih (left + (right - left) / 2 + 1) right (by omega) (by omega) h1
            (fun j hj1 hj2 => hall j (by omega) hj2)
    · simp only [Block.binarySearchLoop]
      rw [if_neg hlr, if_neg (by omega)]
      have heq : left = right := by omega
      rw [heq]

/-- C8 (amended): for a block with at least one snapshot and a target above
the block's key range — the comparator answers Less at every snapshot entry
— binary_search returns the nearest bound, namely the last snapshot offset.
(For a target below the range the loop keeps `left = 0` and the final
`read_offset_snapshot(left - 1)` underflows, a panic; the code documents
that the target must lie within range.) -/
theorem c8_binary_search_above_range (b : Block) (cmp : List Nat → Ordering)
    (hcnt : 1 ≤ b.size / SNAPSHOT_FREQUENCY)
    (hall : ∀ j, j < b.size / SNAPSHOT_FREQUENCY →
      (b.read_offset_snapshot j).bind
        (fun off => (Entry.key (b.data.drop off)).map cmp) = some .lt) :
    b.binary_search cmp =
      b.read_offset_snapshot (b.size / SNAPSHOT_FREQUENCY - 1) := by
  unfold Block.binary_search
  exact binarySearchLoop_all_lt b cmp _ 0 _ (by omega) (by omega) hcnt
    (fun j h1 h2 => hall j h2)

/-- Witness for the amended C8 at `blockD` (ten records, one snapshot, value
27) with a comparator that answers Less everywhere (target above range):
the search returns the last snapshot. -/
theorem c8_binary_search_above_range_witness :
    1 ≤ blockD.size / SNAPSHOT_FREQUENCY ∧
    blockD.binary_search (fun _ => .lt) =
      blockD.read_offset_snapshot (blockD.size / SNAPSHOT_FREQUENCY - 1) :=
  ⟨by decide, c8_binary_search_above_range blockD (fun _ => .lt) (by decide) (by decide)⟩

/-- C8 counterexample: for a target below the block's key range (the
comparator answers Greater at every entry), the loop never moves `left`,
and the final `read_offset_snapshot(left - 1)` underflows: the search
panics instead of returning the nearest bound. -/
theorem c8_counterexample_below_range_underflow :
    insertList (Block.new (List.replicate 34 0)) esD = some blockD ∧
    1 ≤ blockD.size / SNAPSHOT_FREQUENCY ∧
    blockD.binary_search (fun _ => .gt) = none :=
  ⟨by decide, by decide, by decide⟩

/-- Reading through a splice: positions before and after the spliced range
see the original list, positions inside see the spliced bytes. -/
theorem get_splice (l sub : List Nat) (off p : Nat) (h : off + sub.length ≤ l.length) :
    (l.take off ++ sub ++ l.drop (off + sub.length)).get? p =
      if p < off then l.get? p
      else if p < off + sub.length then sub.get? (p - off)
      else l.get? p := by
  have htk : (l.take off).length = off := by
    rw [List.length_take]
    omega
  by_cases h1 : p < off
  · rw [if_pos h1, List.append_assoc, List.get?_append (by omega), List.get?_take h1]
  · rw [if_neg h1]
    by_cases h2 : p < off + sub.length
    · rw [if_pos h2, List.append_assoc, List.get?_append_right (by omega), htk,
        List.get?_append (by omega)]
    · rw [if_neg h2, List.append_assoc, List.get?_append_right (by omega), htk,
        List.get?_append_right (by omega), List.get?_drop]
      congr 1
      omega

/-- copy_from_slice preserves the buffer's length. -/
theorem copyFromSlice_length (l src : List Nat) (s : Nat) (w : List Nat)
    (h : copyFromSlice l s src = some w) : w.length = l.length := by
  unfold copyFromSlice at h
  by_cases hc : s + src.length ≤ l.length
  · rw [if_pos hc] at h
    cases h
    simp only [List.length_append, List.length_take, List.length_drop]
    omega
  · rw [if_neg hc] at h
    cases h

/-- Entry::create preserves the length of the region it writes into. -/
theorem Entry.create_length (region kb vb w : List Nat)
    (h : Entry.create region kb vb = some w) : w.length = region.length := by
  unfold Entry.create at h
  simp only [Option.bind_eq_bind] at h
  cases hc1 : copyFromSlice region 0 (varintEncode kb.length) with
  | none => rw [hc1] at h; cases h
  | some d1 =>
    rw [hc1, Option.some_bind] at h
    cases hc2 : copyFromSlice d1 (varintEncode kb.length).length (varintEncode vb.length) with
    | none => rw [hc2] at h; cases h
    | some d2 =>
      rw [hc2, Option.some_bind] at h
      cases hc3 : copyFromSlice d2
          ((varintEncode kb.length).length + (varintEncode vb.length).length) kb with
      | none => rw [hc3] at h; cases h
      | some d3 =>
        rw [hc3, Option.some_bind] at h
        calc w.length = d3.length := copyFromSlice_length d3 vb _ w h
          _ = d2.length := copyFromSlice_length d2 kb _ d3 hc3
          _ = d1.length := copyFromSlice_length d1 _ _ d2 hc2
          _ = region.length := copyFromSlice_length region _ _ d1 hc1

/-- Every varint needs at least one byte. -/
theorem requiredSpace_pos (n : Nat) : 1 ≤ requiredSpace n := by
  rw [requiredSpace_eq_length]
  exact varintEncode_length_pos n

/-- Characterization of a successful snapshot save: headers unchanged,
length unchanged, bytes outside the written 4-byte slot unchanged, and the
slot holds the little-endian offset.  Success forces at least one snapshot
to fit. -/
theorem save_char (b1 b2 : Block) (h : b1.save_offset_snapshot = some b2) :
    b2.size = b1.size ∧ b2.offset = b1.offset ∧ b2.data.length = b1.data.length ∧
    1 ≤ b1.size / SNAPSHOT_FREQUENCY ∧
    b1.size / SNAPSHOT_FREQUENCY * 4 ≤ b1.data.length ∧
    (∀ p, (p < b1.data.length - b1.size / SNAPSHOT_FREQUENCY * 4 ∨
           b1.data.length - b1.size / SNAPSHOT_FREQUENCY * 4 + 4 ≤ p) →
      b2.data.get? p = b1.data.get? p) ∧
    (∀ t, t < 4 →
      b2.data.get? (b1.data.length - b1.size / SNAPSHOT_FREQUENCY * 4 + t) =
        (toLeBytes b1.offset).get? t) := by
  unfold Block.save_offset_snapshot at h
  by_cases hcap : 4 * (b1.size / SNAPSHOT_FREQUENCY) > b1.data.length
  · rw [if_pos hcap] at h
    simp at h
  · rw [if_neg hcap] at h
    simp only [Option.bind_eq_bind] at h
    unfold copyFromSlice at h
    have hleb : (toLeBytes b1.offset).length = 4 := rfl
    rw [hleb] at h
    by_cases hok : b1.data.length - b1.size / SNAPSHOT_FREQUENCY * 4 + 4 ≤ b1.data.length
    · rw [if_pos hok, Option.some_bind] at h
      have hcnt : 1 ≤ b1.size / SNAPSHOT_FREQUENCY := by omega
      have hb2 : b2 = { b1 with data :=
          (b1.data.take (b1.data.length - b1.size / SNAPSHOT_FREQUENCY * 4) ++
            toLeBytes b1.offset ++
            b1.data.drop (b1.data.length - b1.size / SNAPSHOT_FREQUENCY * 4 + 4)) } :=
        (Option.some.inj h).symm
      subst hb2
      have hs : ∀ p, (b1.data.take (b1.data.length - b1.size / SNAPSHOT_FREQUENCY * 4) ++
          toLeBytes b1.offset ++
          b1.data.drop (b1.data.length - b1.size / SNAPSHOT_FREQUENCY * 4 + 4)).get? p =
          if p < b1.data.length - b1.size / SNAPSHOT_FREQUENCY * 4 then b1.data.get? p
          else if p < b1.data.length - b1.size / SNAPSHOT_FREQUENCY * 4 + 4 then
            (toLeBytes b1.offset).get? (p - (b1.data.length -
              b1.size / SNAPSHOT_FREQUENCY * 4))
          else b1.data.get? p := by
        intro p
        have hg := get_splice b1.data (toLeBytes b1.offset)
          (b1.data.length - b1.size / SNAPSHOT_FREQUENCY * 4) p (by rw [hleb]; omega)
        rw [hleb] at hg
        exact hg
      refine ⟨rfl, rfl, ?_, hcnt, by omega, ?_, ?_⟩
      · simp only [List.length_append, List.length_take, List.length_drop, hleb]
        omega
      · intro p hp
        rw [hs p]
        rcases hp with hp | hp
        · rw [if_pos hp]
        · rw [if_neg (by omega), if_neg (by omega)]
      · intro t ht
        rw [hs _]
        rw [if_neg (by omega), if_pos (by omega)]
        congr 1
        omega
    · rw [if_neg hok] at h
      simp at h

/-- Characterization of a successful `Block::insert`: the entry count and
offset advance, the buffer length is unchanged, the charged size fits, all
bytes outside the new record's range (and, on a snapshot save, outside the
newly written 4-byte slot) are unchanged, and the new slot holds the
little-endian pre-insert offset wherever the record bytes do not cover it. -/
theorem insertOk_char (b : Block) (kb vb : List Nat) (b' : Block)
    (h : b.insertOk kb vb = some b') :
    b'.size = b.size + 1 ∧
    b'.offset = b.offset + codeEntrySize kb vb ∧
    b'.data.length = b.data.length ∧
    b.offset + codeEntrySize kb vb ≤ b.data.length ∧
    (∀ p, (p < b.offset ∨ b.offset + codeEntrySize kb vb ≤ p) →
      ((b.size + 1) % SNAPSHOT_FREQUENCY = 0 →
        p < b.data.length - (b.size + 1) / SNAPSHOT_FREQUENCY * 4 ∨
        b.data.length - (b.size + 1) / SNAPSHOT_FREQUENCY * 4 + 4 ≤ p) →
      b'.data.get? p = b.data.get? p) ∧
    ((b.size + 1) % SNAPSHOT_FREQUENCY = 0 →
      ∀ t, t < 4 →
        (b.data.length - (b.size + 1) / SNAPSHOT_FREQUENCY * 4 + t < b.offset ∨
         b.offset + codeEntrySize kb vb ≤
           b.data.length - (b.size + 1) / SNAPSHOT_FREQUENCY * 4 + t) →
        b'.data.get? (b.data.length - (b.size + 1) / SNAPSHOT_FREQUENCY * 4 + t) =
          (toLeBytes b.offset).get? t) := by
  have hces : codeEntrySize kb vb =
      requiredSpace kb.length + requiredSpace kb.length + kb.length + vb.length := rfl
  unfold Block.insertOk Block.insert at h
  simp only [Nat.zero_lt_succ] at h
  rw [← hces] at h
  by_cases hfull : codeEntrySize kb vb > b.data.length - b.offset
  · rw [if_pos hfull] at h
    simp at h
  · rw [if_neg hfull] at h
    have hES2 : 2 ≤ codeEntrySize kb vb := by
      rw [hces]
      have := requiredSpace_pos kb.length
      omega
    have hoffL : b.offset + codeEntrySize kb vb ≤ b.data.length := by omega
    simp only [Option.bind_eq_bind] at h
    by_cases hsnap : (b.size + 1) % SNAPSHOT_FREQUENCY = 0
    · rw [if_pos hsnap] at h
      cases hsv : ({ b with size := b.size + 1 } : Block).save_offset_snapshot with
      | none => rw [hsv] at h; simp at h
      | some b2 =>
        rw [hsv, Option.some_bind] at h
        obtain ⟨hsz2, hof2, hlen2, hcnt2, hcap2, hfr2, hslot2⟩ := save_char _ _ hsv
        have e1 : ({ b with size := b.size + 1 } : Block).data = b.data := rfl
        have e2 : ({ b with size := b.size + 1 } : Block).size = b.size + 1 := rfl
        have e3 : ({ b with size := b.size + 1 } : Block).offset = b.offset := rfl
        simp only [e1, e2, e3] at hsz2 hof2 hlen2 hcnt2 hcap2 hfr2 hslot2
        cases hcr : Entry.create ((b2.data.drop b.offset).take (codeEntrySize kb vb))
            kb vb with
        | none => rw [hcr] at h; simp at h
        | some written =>
          rw [hcr, Option.some_bind] at h
          have hb' := (Option.some.inj h).symm
          subst hb'
          have hwl : written.length = codeEntrySize kb vb := by
            rw [Entry.create_length _ _ _ _ hcr, List.length_take, List.length_drop,
              hlen2]
            omega
          have hsplice : ∀ p, (b2.data.take b.offset ++ written ++
              b2.data.drop (b.offset + codeEntrySize kb vb)).get? p =
              if p < b.offset then b2.data.get? p
              else if p < b.offset + codeEntrySize kb vb then written.get? (p - b.offset)
              else b2.data.get? p := by
            intro p
            have hg := get_splice b2.data written b.offset p (by rw [hwl]; omega)
            rw [hwl] at hg
            exact hg
          refine ⟨hsz2, by dsimp only; rw [hof2], ?_, hoffL, ?_, ?_⟩
          · dsimp only
            simp only [List.length_append, List.length_take, List.length_drop, hwl,
              hlen2]
            omega
          · intro p hp hslotp
            dsimp only
            rw [hsplice p]
            have hb2p : b2.data.get? p = b.data.get? p := hfr2 p (hslotp hsnap)
            rcases hp with hp | hp
            · rw [if_pos hp, hb2p]
            · rw [if_neg (by omega), if_neg (by omega), hb2p]
          · intro _ t ht hdisj
            dsimp only
            rw [hsplice _]
            have hval := hslot2 t ht
            rcases hdisj with hd | hd
            · rw [if_pos hd, hval]
            · rw [if_neg (by omega), if_neg (by omega), hval]
    · rw [if_neg hsnap] at h
      rw [Option.some_bind] at h
      dsimp only at h
      cases hcr : Entry.create ((b.data.drop b.offset).take (codeEntrySize kb vb))
          kb vb with
      | none => rw [hcr] at h; simp at h
      | some written =>
        rw [hcr, Option.some_bind] at h
        have hb' := (Option.some.inj h).symm
        subst hb'
        have hwl : written.length = codeEntrySize kb vb := by
          rw [Entry.create_length _ _ _ _ hcr, List.length_take, List.length_drop]
          omega
        have hsplice : ∀ p, (b.data.take b.offset ++ written ++
            b.data.drop (b.offset + codeEntrySize kb vb)).get? p =
            if p < b.offset then b.data.get? p
            else if p < b.offset + codeEntrySize kb vb then written.get? (p - b.offset)
            else b.data.get? p := by
          intro p
          have hg := get_splice b.data written b.offset p (by rw [hwl]; omega)
          rw [hwl] at hg
          exact hg
        refine ⟨rfl, rfl, ?_, hoffL, ?_, ?_⟩
        · dsimp only
          simp only [List.length_append, List.length_take, List.length_drop, hwl]
          omega
        · intro p hp hslotp
          dsimp only
          rw [hsplice p]
          rcases hp with hp | hp
          · rw [if_pos hp]
          · rw [if_neg (by omega), if_neg (by omega)]
        · intro hc
          exact absurd hc hsnap

/-- The budget sum grows by one entry's budget at each step. -/
theorem sizeUpTo_succ (es : List (List Nat × List Nat)) (k : Nat) (h : k < es.length) :
    sizeUpTo es (k + 1) = sizeUpTo es k + codeEntrySize es[k].1 es[k].2 := by
  unfold sizeUpTo
  rw [List.take_succ]
  rw [List.map_append, List.sum_append]
  congr 1
  rw [List.getElem?_eq_getElem h]
  simp

/-- The budget sum is monotone. -/
theorem sizeUpTo_mono (es : List (List Nat × List Nat)) (m n : Nat) (h : m ≤ n) :
    sizeUpTo es m ≤ sizeUpTo es n := by
  induction n with
  | zero =>
    have hm0 : m = 0 := by omega
    subst hm0
    exact le_rfl
  | succ i ih =>
    rcases Nat.lt_or_ge m (i + 1) with hm | hm
    · have h1 : sizeUpTo es m ≤ sizeUpTo es i := ih (by omega)
      by_cases hi : i < es.length
      · rw [sizeUpTo_succ es i hi]
        omega
      · have : es.take (i + 1) = es.take i := by
          rw [List.take_of_length_le (by omega), List.take_of_length_le (by omega)]
        unfold sizeUpTo
        rw [this]
        exact h1
    · have : m = i + 1 := by omega
      subst this
      exact le_rfl

/-- Extract the four little-endian bytes at a slot as a list, from pointwise
reads. -/
theorem take4_of_get (l : List Nat) (s v : Nat)
    (hlen : s + 4 ≤ l.length)
    (h : ∀ t, t < 4 → l.get? (s + t) = (toLeBytes v).get? t) :
    (l.drop s).take 4 = toLeBytes v := by
  have hL1 : ((l.drop s).take 4).length = 4 := by
    rw [List.length_take, List.length_drop]
    omega
  have hL2 : (toLeBytes v).length = 4 := rfl
  apply List.ext_get?
  intro n
  by_cases hn : n < 4
  · rw [List.get?_take hn, List.get?_drop]
    exact h n hn
  · rw [List.get?_len_le (by omega), List.get?_len_le (by omega)]

/-- Reassembling a u32 from its little-endian bytes. -/
theorem fromLe_toLe (v : Nat) (h : v < 2 ^ 32) :
    v % 256 + 256 * (v / 256 % 256) + 65536 * (v / 65536 % 256) +
      16777216 * (v / 16777216 % 256) = v := by
  omega

/-- Invariant of `insertList` on a fresh block whose capacity holds both
the record region and the snapshot region: after `k` inserts the entry
count is `k`, the offset is the sum of the charged sizes, the length is
unchanged, and every saved snapshot slot `j` (1-indexed from the top of
the buffer) holds the little-endian offset of record
`j * SNAPSHOT_FREQUENCY - 1`. -/
theorem insertList_inv (es : List (List Nat × List Nat)) (L : Nat)
    (hfit : sizeUpTo es es.length + es.length / SNAPSHOT_FREQUENCY * 4 ≤ L) :
    ∀ d k b bN, es.length - k = d → k ≤ es.length →
      b.size = k → b.offset = sizeUpTo es k → b.data.length = L →
      (∀ j, 1 ≤ j → j ≤ k / SNAPSHOT_FREQUENCY → ∀ t, t < 4 →
        b.data.get? (L - j * 4 + t) =
          (toLeBytes (sizeUpTo es (j * SNAPSHOT_FREQUENCY - 1))).get? t) →
      insertList b (es.drop k) = some bN →
      bN.size = es.length ∧ bN.offset = sizeUpTo es es.length ∧
      bN.data.length = L ∧
      (∀ j, 1 ≤ j → j ≤ es.length / SNAPSHOT_FREQUENCY → ∀ t, t < 4 →
        bN.data.get? (L - j * 4 + t) =
          (toLeBytes (sizeUpTo es (j * SNAPSHOT_FREQUENCY - 1))).get? t) := by
  intro d
  induction d with
  | zero =>
    intro k b bN hd hk hsz hof hlen hslots hins
    have hkN : k = es.length := by omega
    subst hkN
    rw [List.drop_length] at hins
    unfold insertList at hins
    have hbN : bN = b := (Option.some.inj hins).symm
    subst hbN
    exact ⟨hsz, hof, hlen, hslots⟩
  | succ d ih =>
    intro k b bN hd hk hsz hof hlen hslots hins
    have hkN : k < es.length := by omega
    rw [List.drop_eq_getElem_cons hkN] at hins
    simp only [insertList] at hins
    cases hok : b.insertOk es[k].1 es[k].2 with
    | none => rw [hok] at hins; simp at hins
    | some b1 =>
      rw [hok, Option.some_bind] at hins
      obtain ⟨hsz1, hof1, hlen1, hfits1, hframe1, hslot1⟩ := insertOk_char b _ _ b1 hok
      have hSF : SNAPSHOT_FREQUENCY = 10 := rfl
      have hupto : sizeUpTo es (k + 1) =
          sizeUpTo es k + codeEntrySize es[k].1 es[k].2 := sizeUpTo_succ es k hkN
      have hNle : sizeUpTo es (k + 1) ≤ sizeUpTo es es.length :=
        sizeUpTo_mono es (k + 1) es.length (by omega)
      have hdivle : (k + 1) / SNAPSHOT_FREQUENCY ≤ es.length / SNAPSHOT_FREQUENCY :=
        Nat.div_le_div_right (by omega)
      refine ih (k + 1) b1 bN (by omega) (by omega) (by omega)
        (by rw [hof1, hof, hupto]) (by omega) ?_ hins
      intro j hj1 hj2 t ht
      rw [hSF] at hj2 hdivle hfit hslots hslot1 hframe1 ⊢
      by_cases hcase : j ≤ k / 10
      · have hp := hframe1 (L - j * 4 + t) (by right; omega) (by intro hm; right; omega)
        rw [hp]
        exact hslots j hj1 hcase t ht
      · have hj' : j = (k + 1) / 10 ∧ (k + 1) % 10 = 0 := by omega
        have hm : (b.size + 1) % 10 = 0 := by omega
        have hv := hslot1 hm t ht (by right; omega)
        have hidx : b.data.length - (b.size + 1) / 10 * 4 + t = L - j * 4 + t := by
          rw [hlen, hsz, ← hj'.1]
        have hval : b.offset = sizeUpTo es (j * 10 - 1) := by
          rw [hof]
          congr 1
          omega
        rw [hidx, hval] at hv
        exact hv

/-- C4 (amended): snapshot cadence holds provided the block's capacity
admits the record region and the snapshot region side by side (the sum of
the charged record sizes plus 4 bytes per snapshot fits the buffer, which
insert itself does not enforce — see the counterexample — and the capacity
is below 2^32 as offsets are u32): after N successful inserts into a fresh
block, snapshot i (read via read_offset_snapshot) is the starting byte
offset of record (i+1)*SNAPSHOT_FREQUENCY - 1, for every i below
N / SNAPSHOT_FREQUENCY. -/
theorem c4_snapshot_cadence (data : List Nat) (es : List (List Nat × List Nat)) (bN : Block)
    (hins : insertList (Block.new data) es = some bN)
    (hfit : sizeUpTo es es.length + es.length / SNAPSHOT_FREQUENCY * 4 ≤ data.length)
    (hlt : data.length < 2 ^ 32) :
    ∀ i, i < es.length / SNAPSHOT_FREQUENCY →
      bN.read_offset_snapshot i =
        some (sizeUpTo es ((i + 1) * SNAPSHOT_FREQUENCY - 1)) := by
  obtain ⟨hsz, hof, hlen, hslots⟩ := insertList_inv es data.length hfit es.length 0
    (Block.new data) bN (by omega) (by omega) rfl (by simp [Block.new, sizeUpTo]) rfl
    (by
      intro j hj1 hj2 t ht
      rw [Nat.zero_div] at hj2
      omega)
    (by simpa using hins)
  intro i hi
  have hSF : SNAPSHOT_FREQUENCY = 10 := rfl
  rw [hSF] at hi hfit
  unfold Block.read_offset_snapshot
  rw [if_neg (by rw [hlen]; omega)]
  have hv : sizeUpTo es ((i + 1) * SNAPSHOT_FREQUENCY - 1) < 2 ^ 32 := by
    have h1 : sizeUpTo es ((i + 1) * SNAPSHOT_FREQUENCY - 1) ≤ sizeUpTo es es.length := by
      apply sizeUpTo_mono
      rw [hSF]
      omega
    omega
  have ht4 : (bN.data.drop (bN.data.length - (i + 1) * 4)).take 4 =
      toLeBytes (sizeUpTo es ((i + 1) * SNAPSHOT_FREQUENCY - 1)) := by
    apply take4_of_get _ _ _ (by rw [hlen]; omega)
    intro t htl
    have hsl := hslots (i + 1) (by omega) (by rw [hSF]; omega) t htl
    rw [hlen]
    exact hsl
  rw [ht4]
  unfold toLeBytes
  dsimp only
  exact congrArg some (fromLe_toLe _ hv)

/-- Witness for the amended C4 at a 34-byte block holding ten 3-byte
records and one snapshot: snapshot 0 is the start of record 9, byte 27. -/
theorem c4_snapshot_cadence_witness :
    insertList (Block.new (List.replicate 34 0)) esD = some blockD ∧
    sizeUpTo esD esD.length + esD.length / SNAPSHOT_FREQUENCY * 4 ≤
      (List.replicate 34 (0 : Nat)).length ∧
    blockD.read_offset_snapshot 0 =
      some (sizeUpTo esD ((0 + 1) * SNAPSHOT_FREQUENCY - 1)) ∧
    sizeUpTo esD ((0 + 1) * SNAPSHOT_FREQUENCY - 1) = 27 := by
  refine ⟨by decide, by decide, ?_, by decide⟩
  exact c4_snapshot_cadence (List.replicate 34 0) esD blockD (by decide)
    (by decide) (by decide) 0 (by decide)

/-- C4 counterexample: as stated — over every fresh block and every run of
successful inserts — the cadence claim fails: on a 43-byte block, ten
successful 4-byte inserts leave snapshot 0 = 200 (the tenth record's bytes
overwrote the slot), not the starting offset 36 of record 9. -/
theorem c4_counterexample_overwritten_slot :
    insertList (Block.new (List.replicate 43 0)) esC = some blockC ∧
    sizeUpTo esC ((0 + 1) * SNAPSHOT_FREQUENCY - 1) = 36 ∧
    blockC.read_offset_snapshot 0 = some 200 ∧
    (200 : Nat) ≠ 36 :=
  ⟨by decide, by decide, by decide, by decide⟩

/-- C10 (amended): a successful insert increments the entry count, advances
the offset by the charged encoded size, keeps the buffer length, and leaves
every byte outside the new record's range and outside the newly written
snapshot slot unchanged.  (The original claim also promised previously
saved snapshots untouched; that fails because the record range may overlap
them — see the counterexample.) -/
theorem c10_insert_frame (b : Block) (kb vb : List Nat) (b2 : Block)
    (h : b.insertOk kb vb = some b2) :
    b2.size = b.size + 1 ∧
    b2.offset = b.offset + codeEntrySize kb vb ∧
    b2.data.length = b.data.length ∧
    ∀ p, (p < b.offset ∨ b.offset + codeEntrySize kb vb ≤ p) →
      ((b.size + 1) % SNAPSHOT_FREQUENCY = 0 →
        p < b.data.length - (b.size + 1) / SNAPSHOT_FREQUENCY * 4 ∨
        b.data.length - (b.size + 1) / SNAPSHOT_FREQUENCY * 4 + 4 ≤ p) →
      b2.data.get? p = b.data.get? p := by
  obtain ⟨h1, h2, h3, _, h5, _⟩ := insertOk_char b kb vb b2 h
  exact ⟨h1, h2, h3, h5⟩

/-- Witness for the amended C10 at a small empty block: byte 10 (outside
the 4-byte record written at offset 0) is unchanged. -/
theorem c10_insert_frame_witness :
    (Block.new (List.replicate 20 0)).insertOk [1] [2] =
      some (Block.mk 1 4 ([1, 1, 1, 2] ++ List.replicate 16 0)) ∧
    (Block.mk 1 4 ([1, 1, 1, 2] ++ List.replicate 16 0)).data.get? 10 =
      (Block.new (List.replicate 20 0)).data.get? 10 :=
  ⟨by decide,
    (c10_insert_frame (Block.new (List.replicate 20 0)) [1] [2]
        (Block.mk 1 4 ([1, 1, 1, 2] ++ List.replicate 16 0)) (by decide)).2.2.2
      10 (by decide) (by decide)⟩
